import Mathlib

/-!
Shallow embedding of the tic-tac-toe game core from `src/game.py`, together
with proofs settling the specification claims about it.

The Python module defines
  * `Player`, an enum with values `X = 0` and `O = 1`;
  * `GameContext`, holding `moves` (a move counter), `board` (a 3×3 grid of
    `Optional[Player]`) and `turn` (the player to move), with methods
    `possible_moves`, `update` and `is_game_over`, plus `filled_equal`;
  * `MinimaxBot`, with methods `minimax` and `predict_move`;
  * `Application.reset_game`, the controller-level reset.

Python's 3×3 list-of-lists board is embedded as a function
`Fin 3 → Fin 3 → Option Player`; the in-place mutation done by
`GameContext.update` is embedded as a state transformer `old ↦ new`
(a separate store-level embedding below settles the claims that are about
in-place mutation and aliasing).
-/

/-- The `Player` enum of `src/game.py` (`X = 0`, `O = 1`). -/
inductive Player where
  | X
  | O
deriving DecidableEq, Repr, Fintype

/-- `Player(1 - p)`: the opponent of `p`. -/
def Player.flip : Player → Player
  | .X => .O
  | .O => .X

/-- The `GameContext` class: `moves` counter, 3×3 `board`, `turn`. -/
structure GameContext where
  moves : Nat
  board : Fin 3 → Fin 3 → Option Player
  turn : Player

/-- `GameContext.__init__`: zero moves, empty board, `turn = Player.O`. -/
def GameContext.init : GameContext :=
  { moves := 0, board := fun _ _ => none, turn := .O }

instance : Inhabited GameContext := ⟨GameContext.init⟩

/-- `filled_equal(x)`: every element is non-`None` and equal to `x[0]`.
The Python loop returns `False` at the first `None` or first element
different from `x[0]`, and `True` if the loop finishes (also for `[]`). -/
def filled_equal (x : List (Option Player)) : Bool :=
  x.all fun item => item.isSome && decide (item = x.headD none)

/-- The cells `(i, j)` for `i in range(3) for j in range(3)`, in the
row-major order in which the `possible_moves` generator enumerates them. -/
def allCells : List (Fin 3 × Fin 3) :=
  [(0, 0), (0, 1), (0, 2), (1, 0), (1, 1), (1, 2), (2, 0), (2, 1), (2, 2)]

/-- `GameContext.possible_moves`: the empty cells in row-major order. -/
def GameContext.possible_moves (ctx : GameContext) : List (Fin 3 × Fin 3) :=
  allCells.filter fun c => decide (ctx.board c.1 c.2 = none)

/-- `GameContext.update(row, col)` as a state transformer: increment
`moves`, write `turn` into the cell, flip `turn`.  (The Python method
mutates `self` in place and returns `None`; the store-level `updateCall`
below embeds the mutation itself.) -/
def GameContext.update (ctx : GameContext) (row col : Fin 3) : GameContext :=
  { moves := ctx.moves + 1
    board := fun i j => if i = row ∧ j = col then some ctx.turn else ctx.board i j
    turn := ctx.turn.flip }

/-- The rows of the board, as iterated by `for row in self.board`. -/
def GameContext.rows (ctx : GameContext) : List (List (Option Player)) :=
  [[ctx.board 0 0, ctx.board 0 1, ctx.board 0 2],
   [ctx.board 1 0, ctx.board 1 1, ctx.board 1 2],
   [ctx.board 2 0, ctx.board 2 1, ctx.board 2 2]]

/-- The columns, `list(map(list, zip(*self.board)))`. -/
def GameContext.cols (ctx : GameContext) : List (List (Option Player)) :=
  [[ctx.board 0 0, ctx.board 1 0, ctx.board 2 0],
   [ctx.board 0 1, ctx.board 1 1, ctx.board 2 1],
   [ctx.board 0 2, ctx.board 1 2, ctx.board 2 2]]

/-- `diag1 = [board[i][i] for i in range(3)]`. -/
def GameContext.diag1 (ctx : GameContext) : List (Option Player) :=
  [ctx.board 0 0, ctx.board 1 1, ctx.board 2 2]

/-- `diag2 = [board[2-i][i] for i in range(3)]`. -/
def GameContext.diag2 (ctx : GameContext) : List (Option Player) :=
  [ctx.board 2 0, ctx.board 1 1, ctx.board 0 2]

/-- All eight lines in the order `is_game_over` tests them:
three rows, three columns, the two diagonals. -/
def GameContext.allLines (ctx : GameContext) : List (List (Option Player)) :=
  ctx.rows ++ ctx.cols ++ [ctx.diag1, ctx.diag2]

/-- `GameContext.is_game_over`: return `(True, line[0])` for the first
line that is `filled_equal` (rows, then columns, then the diagonals —
the sequence of early returns is the first match over `allLines`);
otherwise `(True, None)` when `moves == 9`, else `(False, None)`. -/
def GameContext.is_game_over (ctx : GameContext) : Bool × Option Player :=
  match ctx.allLines.find? filled_equal with
  | some line => (true, line.headD none)
  | none => if ctx.moves = 9 then (true, none) else (false, none)

/-- Number of empty cells of the board. -/
def emptyCount (ctx : GameContext) : Nat :=
  ctx.possible_moves.length

/-- Number of occupied (non-`None`) cells of the board. -/
def occupiedCount (ctx : GameContext) : Nat :=
  (allCells.filter fun c => (ctx.board c.1 c.2).isSome).length

/-- The eight winning lines as coordinate triples, in the same order as
`GameContext.allLines`. -/
def linePositions : List (List (Fin 3 × Fin 3)) :=
  [[(0, 0), (0, 1), (0, 2)], [(1, 0), (1, 1), (1, 2)], [(2, 0), (2, 1), (2, 2)],
   [(0, 0), (1, 0), (2, 0)], [(0, 1), (1, 1), (2, 1)], [(0, 2), (1, 2), (2, 2)],
   [(0, 0), (1, 1), (2, 2)], [(2, 0), (1, 1), (0, 2)]]

/-- Player `p` has a completed line: some row, column or diagonal is
filled with three `p` marks. -/
def lineWin (ctx : GameContext) (p : Player) : Prop :=
  ∃ pos ∈ linePositions, ∀ q ∈ pos, ctx.board q.1 q.2 = some p

instance (ctx : GameContext) (p : Player) : Decidable (lineWin ctx p) := by
  unfold lineWin; infer_instance

lemma allLines_eq_map (ctx : GameContext) :
    ctx.allLines = linePositions.map (fun pos => pos.map fun q => ctx.board q.1 q.2) := rfl

lemma filled_equal_iff3 : ∀ a b c : Option Player,
    filled_equal [a, b, c] = true ↔ ∃ p, a = some p ∧ b = some p ∧ c = some p := by
  decide

lemma linePositions_shape :
    ∀ pos ∈ linePositions, ∃ q1 q2 q3, pos = [q1, q2, q3] := by decide

/-- A `filled_equal` line of the board yields a `lineWin`, and the head of
the line carries the winner. -/
lemma complete_line_win (ctx : GameContext) (pos : List (Fin 3 × Fin 3))
    (hpos : pos ∈ linePositions)
    (hfe : filled_equal (pos.map fun q => ctx.board q.1 q.2) = true) :
    ∃ p, (∀ q ∈ pos, ctx.board q.1 q.2 = some p) ∧
      (pos.map fun q => ctx.board q.1 q.2).headD none = some p := by
  obtain ⟨q1, q2, q3, rfl⟩ := linePositions_shape pos hpos
  simp only [List.map_cons, List.map_nil] at hfe
  obtain ⟨p, h1, h2, h3⟩ := (filled_equal_iff3 _ _ _).1 hfe
  refine ⟨p, ?_, by simp [h1]⟩
  intro q hq
  rcases List.mem_cons.1 hq with rfl | hq
  · exact h1
  rcases List.mem_cons.1 hq with rfl | hq
  · exact h2
  rcases List.mem_cons.1 hq with rfl | hq
  · exact h3
  · cases hq

/-- Conversely a `lineWin` makes the corresponding line `filled_equal`. -/
lemma lineWin_filled_equal (ctx : GameContext) (p : Player)
    (h : lineWin ctx p) :
    ∃ l ∈ ctx.allLines, filled_equal l = true := by
  obtain ⟨pos, hpos, hall⟩ := h
  refine ⟨pos.map fun q => ctx.board q.1 q.2, ?_, ?_⟩
  · rw [allLines_eq_map]; exact List.mem_map_of_mem _ hpos
  · obtain ⟨q1, q2, q3, rfl⟩ := linePositions_shape pos hpos
    simp only [List.map_cons, List.map_nil]
    exact (filled_equal_iff3 _ _ _).2
      ⟨p, hall q1 (by simp), hall q2 (by simp), hall q3 (by simp)⟩

lemma is_game_over_find_some (ctx : GameContext) (l : List (Option Player))
    (hf : ctx.allLines.find? filled_equal = some l) :
    ctx.is_game_over = (true, l.headD none) := by
  unfold GameContext.is_game_over
  rw [hf]

lemma is_game_over_find_none (ctx : GameContext)
    (hf : ctx.allLines.find? filled_equal = none) :
    ctx.is_game_over = if ctx.moves = 9 then (true, none) else (false, none) := by
  unfold GameContext.is_game_over
  rw [hf]

lemma is_game_over_winner (ctx : GameContext) (p : Player)
    (h : (ctx.is_game_over).2 = some p) :
    (ctx.is_game_over).1 = true ∧ lineWin ctx p := by
  cases hf : ctx.allLines.find? filled_equal with
  | some l =>
      have heq := is_game_over_find_some ctx l hf
      rw [heq] at h ⊢
      have hfe : filled_equal l = true := List.find?_some hf
      have hmem : l ∈ ctx.allLines := List.mem_of_find?_eq_some hf
      rw [allLines_eq_map] at hmem
      obtain ⟨pos, hpos, rfl⟩ := List.mem_map.1 hmem
      obtain ⟨q, hq, hhead⟩ := complete_line_win ctx pos hpos hfe
      simp only at h
      rw [hhead] at h
      injection h with h
      subst h
      exact ⟨rfl, ⟨pos, hpos, hq⟩⟩
  | none =>
      have heq := is_game_over_find_none ctx hf
      rw [heq] at h
      by_cases h9 : ctx.moves = 9 <;> simp [h9] at h

lemma is_game_over_of_lineWin (ctx : GameContext)
    (h : ∃ p, lineWin ctx p) :
    ∃ p, (ctx.is_game_over).2 = some p := by
  obtain ⟨p, hp⟩ := h
  obtain ⟨l, hl, hfe⟩ := lineWin_filled_equal ctx p hp
  cases hf : ctx.allLines.find? filled_equal with
  | some l' =>
      have heq := is_game_over_find_some ctx l' hf
      have hfe' : filled_equal l' = true := List.find?_some hf
      have hmem : l' ∈ ctx.allLines := List.mem_of_find?_eq_some hf
      rw [allLines_eq_map] at hmem
      obtain ⟨pos, hpos, rfl⟩ := List.mem_map.1 hmem
      obtain ⟨q, _, hhead⟩ := complete_line_win ctx pos hpos hfe'
      exact ⟨q, by rw [heq]; exact hhead⟩
  | none =>
      exact absurd hfe (by simpa using (List.find?_eq_none.1 hf) l hl)

lemma is_game_over_no_win (ctx : GameContext)
    (h : ¬ ∃ p, lineWin ctx p) :
    ctx.is_game_over = if ctx.moves = 9 then (true, none) else (false, none) := by
  cases hf : ctx.allLines.find? filled_equal with
  | some l =>
      exfalso
      have hfe : filled_equal l = true := List.find?_some hf
      have hmem : l ∈ ctx.allLines := List.mem_of_find?_eq_some hf
      rw [allLines_eq_map] at hmem
      obtain ⟨pos, hpos, rfl⟩ := List.mem_map.1 hmem
      obtain ⟨q, hq, _⟩ := complete_line_win ctx pos hpos hfe
      exact h ⟨q, pos, hpos, hq⟩
  | none => exact is_game_over_find_none ctx hf

/-- When `is_game_over` reports no game over, no line is complete. -/
lemma no_lineWin_of_not_over (ctx : GameContext)
    (h : (ctx.is_game_over).1 = false) :
    ¬ ∃ p, lineWin ctx p := by
  intro hw
  obtain ⟨p, hp⟩ := is_game_over_of_lineWin ctx hw
  obtain ⟨h1, _⟩ := is_game_over_winner ctx p hp
  rw [h1] at h
  cases h

/-- Claim C2 (confirmed): `is_game_over` returns a winner exactly when some
row, column or diagonal is filled with three identical non-Empty marks (and
the winner is that mark's player), returns `(true, none)` when `moves = 9`
and no line is complete, and `(false, none)` otherwise. -/
theorem is_game_over_spec (ctx : GameContext) :
    (∀ p, (ctx.is_game_over).2 = some p → (ctx.is_game_over).1 = true ∧ lineWin ctx p) ∧
    ((∃ p, lineWin ctx p) → ∃ p, (ctx.is_game_over).2 = some p) ∧
    (¬ (∃ p, lineWin ctx p) →
      ctx.is_game_over = if ctx.moves = 9 then (true, none) else (false, none)) :=
  ⟨is_game_over_winner ctx, is_game_over_of_lineWin ctx, is_game_over_no_win ctx⟩

/-- A board helper for concrete test positions (row-major list of rows). -/
def boardOf (l : List (List (Option Player))) : Fin 3 → Fin 3 → Option Player :=
  fun i j => ((l.getD i []).getD j none)

/-- `X X X / O O . / . . .` with `X` having completed the top row. -/
def ctxRowWin : GameContext :=
  { moves := 5
    board := boardOf [[some .X, some .X, some .X], [some .O, some .O, none], [none, none, none]]
    turn := .O }

theorem is_game_over_spec_witness :
    ∃ p, (ctxRowWin.is_game_over).2 = some p :=
  (is_game_over_spec ctxRowWin).2.1 ⟨.X, by decide⟩

/-- Game states reachable by the running application: start from
`GameContext.__init__` and apply `update` only to empty cells of states on
which the game is not yet over (both the click handler and the controller
check `is_game_over` and stop feeding moves once it reports game over). -/
inductive Reachable : GameContext → Prop where
  | init : Reachable GameContext.init
  | step (ctx : GameContext) (mv : Fin 3 × Fin 3) (h : Reachable ctx)
      (hover : (ctx.is_game_over).1 = false) (hmv : mv ∈ ctx.possible_moves) :
      Reachable (ctx.update mv.1 mv.2)

/-- States reachable by accepted moves alone: `update` applied only to
empty cells, with no game-over cutoff. -/
inductive ReachableLoose : GameContext → Prop where
  | init : ReachableLoose GameContext.init
  | step (ctx : GameContext) (row col : Fin 3) (h : ReachableLoose ctx)
      (hempty : ctx.board row col = none) :
      ReachableLoose (ctx.update row col)

lemma update_board_eq (ctx : GameContext) (row col : Fin 3) :
    (ctx.update row col).board row col = some ctx.turn := by
  simp [GameContext.update]

lemma update_board_ne (ctx : GameContext) (row col : Fin 3)
    (q : Fin 3 × Fin 3) (h : q ≠ (row, col)) :
    (ctx.update row col).board q.1 q.2 = ctx.board q.1 q.2 := by
  unfold GameContext.update
  simp only
  rw [if_neg]
  rintro ⟨h1, h2⟩
  exact h (Prod.ext h1 h2)

lemma length_filter_flip {α : Type} (l : List α) (p q : α → Bool) (a : α)
    (hnd : l.Nodup) (ha : a ∈ l) (hpa : p a = false) (hqa : q a = true)
    (hpq : ∀ x ∈ l, x ≠ a → q x = p x) :
    (l.filter q).length = (l.filter p).length + 1 := by
  induction l with
  | nil => cases ha
  | cons b t ih =>
      have hbt : b ∉ t := (List.nodup_cons.1 hnd).1
      have htnd : t.Nodup := (List.nodup_cons.1 hnd).2
      rcases List.mem_cons.1 ha with rfl | hat
      · have hcongr : t.filter q = t.filter p := by
          apply List.filter_congr
          intro x hx
          exact hpq x (List.mem_cons_of_mem _ hx) (fun he => hbt (he ▸ hx))
        simp [List.filter_cons, hpa, hqa, hcongr]
      · have hba : b ≠ a := fun he => hbt (he ▸ hat)
        have hqb : q b = p b := hpq b (List.mem_cons_self _ _) hba
        have := ih htnd hat (fun x hx hxa => hpq x (List.mem_cons_of_mem _ hx) hxa)
        cases hpb : p b <;> simp [List.filter_cons, hqb, hpb, this]

lemma length_filter_add {α : Type} (l : List α) (p q : α → Bool)
    (h : ∀ x ∈ l, q x = !p x) :
    (l.filter p).length + (l.filter q).length = l.length := by
  induction l with
  | nil => rfl
  | cons b t ih =>
      have hqb := h b (List.mem_cons_self _ _)
      have := ih (fun x hx => h x (List.mem_cons_of_mem _ hx))
      cases hpb : p b <;>
        (rw [hpb] at hqb; simp [List.filter_cons, hpb, hqb]; omega)

lemma mem_allCells (c : Fin 3 × Fin 3) : c ∈ allCells := by
  revert c; decide

lemma allCells_nodup : allCells.Nodup := by decide

lemma mem_possible_moves (ctx : GameContext) (mv : Fin 3 × Fin 3) :
    mv ∈ ctx.possible_moves ↔ ctx.board mv.1 mv.2 = none := by
  unfold GameContext.possible_moves
  rw [List.mem_filter]
  simp [mem_allCells]

lemma occupiedCount_update (ctx : GameContext) (row col : Fin 3)
    (h : ctx.board row col = none) :
    occupiedCount (ctx.update row col) = occupiedCount ctx + 1 := by
  apply length_filter_flip allCells _ _ (row, col) allCells_nodup (mem_allCells _)
  · simp [h]
  · simp [update_board_eq]
  · intro x _ hx
    rw [update_board_ne ctx row col x hx]

lemma emptyCount_update (ctx : GameContext) (row col : Fin 3)
    (h : ctx.board row col = none) :
    emptyCount ctx = emptyCount (ctx.update row col) + 1 := by
  apply length_filter_flip allCells _ _ (row, col) allCells_nodup (mem_allCells _)
  · simp [update_board_eq]
  · simp [h]
  · intro x _ hx
    rw [update_board_ne ctx row col x hx]

lemma emptyCount_add_occupiedCount (ctx : GameContext) :
    emptyCount ctx + occupiedCount ctx = 9 := by
  apply length_filter_add
  intro x _
  cases hx : ctx.board x.1 x.2 <;> simp [hx]

lemma inv_update (ctx : GameContext) (row col : Fin 3)
    (hempty : ctx.board row col = none) (hinv : ctx.moves = occupiedCount ctx) :
    (ctx.update row col).moves = occupiedCount (ctx.update row col) := by
  rw [occupiedCount_update ctx row col hempty]
  simp [GameContext.update, hinv]

/-- Claim C7 (confirmed): for every state reachable by accepted moves
(moves applied only to empty cells), `moves` equals the number of
non-empty cells, and one `update` on an empty cell preserves the
invariant. -/
theorem moves_eq_occupiedCount :
    (∀ ctx, ReachableLoose ctx → ctx.moves = occupiedCount ctx) ∧
    (∀ (ctx : GameContext) (row col : Fin 3), ctx.board row col = none →
      ctx.moves = occupiedCount ctx →
      (ctx.update row col).moves = occupiedCount (ctx.update row col)) := by
  constructor
  · intro ctx h
    induction h with
    | init => decide
    | step ctx row col h hempty ih => exact inv_update ctx row col hempty ih
  · exact inv_update

theorem moves_eq_occupiedCount_witness :
    GameContext.init.moves = occupiedCount GameContext.init ∧
    (GameContext.init.update 0 0).moves = occupiedCount (GameContext.init.update 0 0) :=
  ⟨moves_eq_occupiedCount.1 GameContext.init ReachableLoose.init,
   moves_eq_occupiedCount.2 GameContext.init 0 0 (by decide)
     (moves_eq_occupiedCount.1 GameContext.init ReachableLoose.init)⟩

lemma lineWin_update (ctx : GameContext) (row col : Fin 3) (p : Player)
    (pos : List (Fin 3 × Fin 3))
    (hwin : ∀ q ∈ pos, (ctx.update row col).board q.1 q.2 = some p) :
    (∀ q ∈ pos, ctx.board q.1 q.2 = some p) ∨ p = ctx.turn := by
  by_cases hm : (row, col) ∈ pos
  · right
    have h := hwin (row, col) hm
    rw [update_board_eq] at h
    injection h with h
    exact h.symm
  · left
    intro q hq
    have hne : q ≠ (row, col) := fun he => hm (he ▸ hq)
    rw [← update_board_ne ctx row col q hne]
    exact hwin q hq

/-- Helper for exhibiting reachable positions: play a list of moves from
the initial context. -/
def playMoves (l : List (Fin 3 × Fin 3)) : GameContext :=
  l.foldl (fun c mv => c.update mv.1 mv.2) GameContext.init

/-- Claim C6, amended (corrected): in a reachable state all completed
lines carry the same mark, so no state has two different winners and the
winner reported by `is_game_over` does not depend on the order of its
checks.  (The original claim that at most one of the eight lines can be
complete is refuted by `two_complete_lines_reachable` below.) -/
theorem reachable_unique_winner (ctx : GameContext) (h : Reachable ctx) :
    ∀ p q, lineWin ctx p → lineWin ctx q → p = q := by
  induction h with
  | init =>
      have : ∀ p, ¬ lineWin GameContext.init p := by decide
      intro p q hp _
      exact absurd hp (this p)
  | step ctx mv h hover hmv ih =>
      intro p q hp hq
      have hnowin := no_lineWin_of_not_over ctx hover
      obtain ⟨posp, hposp, hallp⟩ := hp
      obtain ⟨posq, hposq, hallq⟩ := hq
      rcases lineWin_update ctx mv.1 mv.2 p posp hallp with hold | rfl
      · exact absurd ⟨p, posp, hposp, hold⟩ hnowin
      rcases lineWin_update ctx mv.1 mv.2 q posq hallq with hold | rfl
      · exact absurd ⟨q, posq, hposq, hold⟩ hnowin
      rfl

/-- `O` completes the top row after nine plies: `O O O / X X . / . . .`
with the last `O` at `(0,2)`; a reachable position with a winner. -/
def ctxQuickWin : GameContext :=
  playMoves [(0, 0), (1, 0), (0, 1), (1, 1), (0, 2)]

theorem reachable_unique_winner_witness : Player.O = Player.O :=
  reachable_unique_winner ctxQuickWin
    (Reachable.step (playMoves [(0, 0), (1, 0), (0, 1), (1, 1)]) (0, 2)
      (Reachable.step (playMoves [(0, 0), (1, 0), (0, 1)]) (1, 1)
        (Reachable.step (playMoves [(0, 0), (1, 0)]) (0, 1)
          (Reachable.step (playMoves [(0, 0)]) (1, 0)
            (Reachable.step GameContext.init (0, 0) Reachable.init
              (by decide) (by decide))
            (by decide) (by decide))
          (by decide) (by decide))
        (by decide) (by decide))
      (by decide) (by decide))
    Player.O Player.O (by decide) (by decide)

/-- The double-win position: `O` plays `(0,1) (0,2) (1,0) (2,0)` and
finally `(0,0)`, `X` plays `(1,1) (1,2) (2,1) (2,2)`; the final move
completes the top row and the left column simultaneously. -/
def ctxDouble : GameContext :=
  playMoves [(0, 1), (1, 1), (0, 2), (1, 2), (1, 0), (2, 1), (2, 0), (2, 2), (0, 0)]

/-- Counterexample to claim C6 as stated: `ctxDouble` is reachable (under
the game-over cutoff) yet two of the eight lines are complete at once. -/
theorem two_complete_lines_reachable :
    Reachable ctxDouble ∧ 2 ≤ ctxDouble.allLines.countP filled_equal :=
  ⟨Reachable.step (playMoves [(0, 1), (1, 1), (0, 2), (1, 2), (1, 0), (2, 1), (2, 0), (2, 2)]) (0, 0)
    (Reachable.step (playMoves [(0, 1), (1, 1), (0, 2), (1, 2), (1, 0), (2, 1), (2, 0)]) (2, 2)
      (Reachable.step (playMoves [(0, 1), (1, 1), (0, 2), (1, 2), (1, 0), (2, 1)]) (2, 0)
        (Reachable.step (playMoves [(0, 1), (1, 1), (0, 2), (1, 2), (1, 0)]) (2, 1)
          (Reachable.step (playMoves [(0, 1), (1, 1), (0, 2), (1, 2)]) (1, 0)
            (Reachable.step (playMoves [(0, 1), (1, 1), (0, 2)]) (1, 2)
              (Reachable.step (playMoves [(0, 1), (1, 1)]) (0, 2)
                (Reachable.step (playMoves [(0, 1)]) (1, 1)
                  (Reachable.step GameContext.init (0, 1) Reachable.init
                    (by decide) (by decide))
                  (by decide) (by decide))
                (by decide) (by decide))
              (by decide) (by decide))
            (by decide) (by decide))
          (by decide) (by decide))
        (by decide) (by decide))
      (by decide) (by decide))
    (by decide) (by decide),
   by decide⟩

/-- The failure modes of the embedded Python code, plus the two error
kinds named by the specification.  `indexError`, `valueError` and
`attributeError` are the exceptions the Python code can actually raise
(list index out of range; `max()`/`min()` of an empty sequence; reading
the never-assigned `self.move`).  `illegalMoveError` and
`noLegalMoveError` are the specification's error kinds — nothing in the
source raises them, they are present so the error-handling claims can be
stated.  `fuel` is an artifact of the fuel-based embedding of the
recursion; fuel `emptyCount + 1` is proven sufficient below. -/
inductive PyErr where
  | indexError
  | valueError
  | attributeError
  | illegalMoveError
  | noLegalMoveError
  | fuel
deriving DecidableEq, Repr

/-- The `MinimaxBot` class: the bound player, the configured `max_depth`,
and the `self.move` attribute (`none` models a freshly constructed bot on
which the attribute was never assigned). -/
structure MinimaxBot where
  player : Player
  max_depth : Int
  move : Option (Fin 3 × Fin 3) := none
deriving DecidableEq, Repr

/-- The early-return block of `minimax` on a finished game: `+10` if the
winner is the bot's player, `-10` if it is the other player (the three
`if`/`elif` branches are exhaustive over `Optional[Player]`), `0` on a
draw. -/
def terminalScore (p : Player) : Option Player → Int
  | some w => if w = p then 10 else -10
  | none => 0

/-- Python's `max(pairs, key=itemgetter(0))`: first pair with maximal
first component (ties keep the earlier element), `none` on `[]` (where
Python raises `ValueError`). -/
def pymax {α : Type} : List (Int × α) → Option (Int × α)
  | [] => none
  | x :: xs => some (xs.foldl (fun acc y => if y.1 > acc.1 then y else acc) x)

/-- Python's `min(pairs, key=itemgetter(0))`: first pair with minimal
first component, `none` on `[]`. -/
def pymin {α : Type} : List (Int × α) → Option (Int × α)
  | [] => none
  | x :: xs => some (xs.foldl (fun acc y => if y.1 < acc.1 then y else acc) x)

/-- The `for move in moves:` loop of `minimax`: for each move, deep-copy
the context, apply the move to the copy and recurse (`rec` is the
recursive call at `depth - 1`), collecting the scores in order; the bot is
threaded through because the recursive calls may assign `self.move`. -/
def scoresLoop (rec : MinimaxBot → GameContext → Except PyErr (Int × MinimaxBot))
    (ctx : GameContext) :
    MinimaxBot → List (Fin 3 × Fin 3) → Except PyErr (List Int × MinimaxBot)
  | bot, [] => .ok ([], bot)
  | bot, mv :: rest =>
    match rec bot (ctx.update mv.1 mv.2) with
    | .error e => .error e
    | .ok (s, bot1) =>
      match scoresLoop rec ctx bot1 rest with
      | .error e => .error e
      | .ok (ss, bot2) => .ok (s :: ss, bot2)

/-- `MinimaxBot.minimax(curr_ctx, depth)`, fuel-based.  On a finished game
it returns the terminal score (without touching `self.move`).  Otherwise
it scores every possible move via the recursion at `depth - 1`, then takes
Python's `max(zip(scores, moves), key=itemgetter(0))` when it is the
bot's turn — rebinding the loop variable `move` to the argmax — and
`min(...)` otherwise, which leaves the loop variable at the *last* move
of the loop (`moves.getLast?`).  When `depth == self.max_depth` (the root
call of `predict_move`) it assigns `self.move` to that variable.  The
returned value is the pair (score, bot-after-call). -/
def minimax_fuel : Nat → MinimaxBot → GameContext → Int → Except PyErr (Int × MinimaxBot)
  | 0, _, _, _ => .error .fuel
  | fuel + 1, bot, ctx, depth =>
    if (ctx.is_game_over).1 then
      .ok (terminalScore bot.player (ctx.is_game_over).2, bot)
    else
      match scoresLoop (fun b c => minimax_fuel fuel b c (depth - 1)) ctx bot
          ctx.possible_moves with
      | .error e => .error e
      | .ok (scores, bot1) =>
        if ctx.turn = bot.player then
          match pymax (scores.zip ctx.possible_moves) with
          | none => .error .valueError
          | some (score, mv) =>
            .ok (score, if depth = bot.max_depth then { bot1 with move := some mv } else bot1)
        else
          match pymin (scores.zip ctx.possible_moves) with
          | none => .error .valueError
          | some (score, _) =>
            .ok (score,
              if depth = bot.max_depth then { bot1 with move := ctx.possible_moves.getLast? }
              else bot1)

/-- `MinimaxBot.predict_move(curr_ctx)`: run `self.minimax(curr_ctx,
self.max_depth)` and return `self.move`.  Reading `self.move` when it was
never assigned raises `AttributeError` in Python.  The fuel
`emptyCount ctx + 1` always suffices (`minimax_fuel_spec`). -/
def MinimaxBot.predict_move (bot : MinimaxBot) (ctx : GameContext) :
    Except PyErr (Fin 3 × Fin 3) :=
  match minimax_fuel (emptyCount ctx + 1) bot ctx bot.max_depth with
  | .error e => .error e
  | .ok (_, bot1) =>
    match bot1.move with
    | some m => .ok m
    | none => .error .attributeError

/-- The specification's minimax score of a node for player `p`
(fuel-based): the terminal score at a finished game, otherwise the
maximum of the children's scores when it is `p`'s turn and the minimum
otherwise. -/
def specScore_fuel : Nat → Player → GameContext → Int
  | 0, _, _ => 0
  | fuel + 1, p, ctx =>
    if (ctx.is_game_over).1 then terminalScore p (ctx.is_game_over).2
    else if ctx.turn = p then
      ((ctx.possible_moves.map fun mv => specScore_fuel fuel p (ctx.update mv.1 mv.2)).max?).getD 0
    else
      ((ctx.possible_moves.map fun mv => specScore_fuel fuel p (ctx.update mv.1 mv.2)).min?).getD 0

/-- The specification's minimax score (the fuel `emptyCount ctx + 1` is
always enough, `specScore_fuel_irrel`). -/
def specScore (p : Player) (ctx : GameContext) : Int :=
  specScore_fuel (emptyCount ctx + 1) p ctx

/-- The first move, in `possible_moves` order, whose minimax score is
maximal among the legal moves. -/
def specBest (p : Player) (ctx : GameContext) : Option (Fin 3 × Fin 3) :=
  ctx.possible_moves.find? fun mv =>
    ctx.possible_moves.all fun mv' =>
      decide (specScore p (ctx.update mv'.1 mv'.2) ≤ specScore p (ctx.update mv.1 mv.2))

/-- First element of `a :: t` achieving the maximum of `f`, computed the
way Python's `max` folds over a sequence. -/
def firstMaxAux {α : Type} (f : α → Int) (a : α) : List α → α
  | [] => a
  | b :: t => if f b > f a then firstMaxAux f b t else firstMaxAux f a t

lemma zip_map_self {α : Type} (f : α → Int) (l : List α) :
    (l.map f).zip l = l.map fun a => (f a, a) := by
  induction l with
  | nil => rfl
  | cons a t ih => simp [ih]

lemma pymax_foldl {α : Type} (f : α → Int) :
    ∀ (t : List α) (a : α),
      (t.map fun x => (f x, x)).foldl (fun acc y => if y.1 > acc.1 then y else acc) (f a, a)
        = (f (firstMaxAux f a t), firstMaxAux f a t)
  | [], a => rfl
  | b :: t, a => by
      simp only [List.map_cons, List.foldl_cons, firstMaxAux]
      by_cases h : f b > f a
      · rw [if_pos h, if_pos h, pymax_foldl f t b]
      · rw [if_neg h, if_neg h, pymax_foldl f t a]

lemma pymax_map {α : Type} (f : α → Int) (a : α) (t : List α) :
    pymax ((a :: t).map fun x => (f x, x))
      = some (f (firstMaxAux f a t), firstMaxAux f a t) := by
  simp only [List.map_cons, pymax]
  exact congrArg some (pymax_foldl f t a)

lemma foldl_max_firstMaxAux {α : Type} (f : α → Int) :
    ∀ (t : List α) (a : α), (t.map f).foldl max (f a) = f (firstMaxAux f a t)
  | [], a => rfl
  | b :: t, a => by
      simp only [List.map_cons, List.foldl_cons, firstMaxAux]
      by_cases h : f b > f a
      · rw [if_pos h, max_eq_right (le_of_lt h), foldl_max_firstMaxAux f t b]
      · rw [if_neg h, max_eq_left (not_lt.1 h), foldl_max_firstMaxAux f t a]

lemma pymin_foldl_fst {α : Type} (f : α → Int) :
    ∀ (t : List α) (x : Int × α),
      ((t.map fun a => (f a, a)).foldl (fun acc y => if y.1 < acc.1 then y else acc) x).1
        = (t.map f).foldl min x.1
  | [], x => rfl
  | b :: t, x => by
      simp only [List.map_cons, List.foldl_cons]
      rw [pymin_foldl_fst f t]
      congr 1
      show (if f b < x.1 then (f b, b) else x).1 = min x.1 (f b)
      by_cases h : f b < x.1
      · rw [if_pos h, min_eq_right (le_of_lt h)]
      · rw [if_neg h, min_eq_left (not_lt.1 h)]

lemma firstMaxAux_spec {α : Type} (f : α → Int) :
    ∀ (t : List α) (a : α),
      (∀ x ∈ a :: t, f x ≤ f (firstMaxAux f a t)) ∧
      ∃ l1 l2, a :: t = l1 ++ firstMaxAux f a t :: l2 ∧
        ∀ x ∈ l1, f x < f (firstMaxAux f a t)
  | [], a => by
      refine ⟨?_, [], [], rfl, by simp⟩
      intro x hx
      rcases List.mem_cons.1 hx with rfl | hx
      · exact le_refl _
      · cases hx
  | b :: t, a => by
      by_cases h : f b > f a
      · obtain ⟨hle, l1, l2, hsplit, hlt⟩ := firstMaxAux_spec f t b
        have hm : firstMaxAux f a (b :: t) = firstMaxAux f b t := by
          simp only [firstMaxAux]; rw [if_pos h]
        rw [hm]
        have hab : f a < f (firstMaxAux f b t) :=
          lt_of_lt_of_le h (hle b (List.mem_cons_self _ _))
        refine ⟨?_, a :: l1, l2, by rw [List.cons_append, ← hsplit], ?_⟩
        · intro x hx
          rcases List.mem_cons.1 hx with rfl | hx
          · exact le_of_lt hab
          · exact hle x hx
        · intro x hx
          rcases List.mem_cons.1 hx with rfl | hx
          · exact hab
          · exact hlt x hx
      · obtain ⟨hle, l1, l2, hsplit, hlt⟩ := firstMaxAux_spec f t a
        have hm : firstMaxAux f a (b :: t) = firstMaxAux f a t := by
          simp only [firstMaxAux]; rw [if_neg h]
        rw [hm]
        have hba : f b ≤ f (firstMaxAux f a t) :=
          le_trans (not_lt.1 h) (hle a (List.mem_cons_self _ _))
        refine ⟨?_, ?_⟩
        · intro x hx
          rcases List.mem_cons.1 hx with hxa | hx
          · rw [hxa]; exact hle a (List.mem_cons_self _ _)
          rcases List.mem_cons.1 hx with hxb | hx
          · rw [hxb]; exact hba
          · exact hle x (List.mem_cons_of_mem _ hx)
        · cases l1 with
          | nil =>
              rw [List.nil_append] at hsplit
              injection hsplit with h1 h2
              refine ⟨[], b :: t, ?_, by simp⟩
              rw [List.nil_append, ← h1]
          | cons a0 l1rest =>
              rw [List.cons_append] at hsplit
              injection hsplit with ha0 ht
              have haf : f a < f (firstMaxAux f a t) := by
                have := hlt a0 (List.mem_cons_self _ _)
                rwa [← ha0] at this
              refine ⟨a :: b :: l1rest, l2, ?_, ?_⟩
              · rw [List.cons_append, List.cons_append, ← ht]
              · intro x hx
                rcases List.mem_cons.1 hx with hxa | hx
                · rw [hxa]; exact haf
                rcases List.mem_cons.1 hx with hxb | hx
                · rw [hxb]; exact lt_of_le_of_lt (not_lt.1 h) haf
                · exact hlt x (List.mem_cons_of_mem _ hx)

lemma find?_eq_some_of_prefix_false {α : Type} (p : α → Bool) (m : α) (l2 : List α)
    (hm : p m = true) :
    ∀ l1 : List α, (∀ x ∈ l1, p x = false) → (l1 ++ m :: l2).find? p = some m
  | [], _ => by
      rw [List.nil_append]
      exact List.find?_cons_of_pos _ hm
  | b :: l1, h => by
      rw [List.cons_append, List.find?_cons_of_neg]
      · exact find?_eq_some_of_prefix_false p m l2 hm l1
          (fun x hx => h x (List.mem_cons_of_mem _ hx))
      · rw [h b (List.mem_cons_self _ _)]
        exact Bool.false_ne_true

lemma find?_first_max {α : Type} (f : α → Int) (l1 l2 : List α) (m : α)
    (hlt : ∀ x ∈ l1, f x < f m)
    (hle : ∀ x ∈ l1 ++ m :: l2, f x ≤ f m) :
    (l1 ++ m :: l2).find? (fun a => (l1 ++ m :: l2).all fun b => decide (f b ≤ f a))
      = some m := by
  have hmem : m ∈ l1 ++ m :: l2 := List.mem_append_right _ (List.mem_cons_self _ _)
  have hm : ((l1 ++ m :: l2).all fun b => decide (f b ≤ f m)) = true :=
    List.all_eq_true.2 fun b hb => decide_eq_true (hle b hb)
  have hfalse : ∀ x ∈ l1, ((l1 ++ m :: l2).all fun b => decide (f b ≤ f x)) = false := by
    intro x hx
    cases hval : ((l1 ++ m :: l2).all fun b => decide (f b ≤ f x)) with
    | false => rfl
    | true =>
        have hmx : f m ≤ f x := of_decide_eq_true (List.all_eq_true.1 hval m hmem)
        exact absurd hmx (not_le.2 (hlt x hx))
  exact find?_eq_some_of_prefix_false _ m l2 hm l1 hfalse

lemma specBest_eq (p : Player) (ctx : GameContext) (m : Fin 3 × Fin 3)
    (t : List (Fin 3 × Fin 3)) (hmoves : ctx.possible_moves = m :: t) :
    specBest p ctx
      = some (firstMaxAux (fun mv => specScore p (ctx.update mv.1 mv.2)) m t) := by
  unfold specBest
  rw [hmoves]
  obtain ⟨hle, l1, l2, hsplit, hlt⟩ :=
    firstMaxAux_spec (fun mv => specScore p (ctx.update mv.1 mv.2)) t m
  rw [hsplit]
  exact find?_first_max _ l1 l2 _ hlt (hsplit ▸ hle)

lemma specScore_fuel_irrel (p : Player) :
    ∀ (f1 f2 : Nat) (ctx : GameContext), emptyCount ctx < f1 → emptyCount ctx < f2 →
      specScore_fuel f1 p ctx = specScore_fuel f2 p ctx := by
  intro f1
  induction f1 with
  | zero => intro f2 ctx h1 _; omega
  | succ f1 ih =>
      intro f2 ctx h1 h2
      cases f2 with
      | zero => omega
      | succ f2 =>
          simp only [specScore_fuel]
          by_cases hover : (ctx.is_game_over).1
          · rw [if_pos hover, if_pos hover]
          · rw [if_neg hover, if_neg hover]
            have hmap :
                (ctx.possible_moves.map fun mv => specScore_fuel f1 p (ctx.update mv.1 mv.2))
                  = ctx.possible_moves.map fun mv => specScore_fuel f2 p (ctx.update mv.1 mv.2) := by
              apply List.map_congr_left
              intro mv hmv
              have hb : ctx.board mv.1 mv.2 = none := (mem_possible_moves ctx mv).1 hmv
              have he : emptyCount ctx = emptyCount (ctx.update mv.1 mv.2) + 1 :=
                emptyCount_update ctx mv.1 mv.2 hb
              exact ih f2 _ (by omega) (by omega)
            rw [hmap]

/-- Children of a node have the specification score at any sufficient fuel. -/
lemma specScore_fuel_child (p : Player) (ctx : GameContext) (fuel : Nat)
    (hfuel : emptyCount ctx ≤ fuel) (mv : Fin 3 × Fin 3)
    (hmv : mv ∈ ctx.possible_moves) :
    specScore_fuel fuel p (ctx.update mv.1 mv.2) = specScore p (ctx.update mv.1 mv.2) := by
  have hb : ctx.board mv.1 mv.2 = none := (mem_possible_moves ctx mv).1 hmv
  have he : emptyCount ctx = emptyCount (ctx.update mv.1 mv.2) + 1 :=
    emptyCount_update ctx mv.1 mv.2 hb
  exact specScore_fuel_irrel p fuel _ _ (by omega) (by omega)

lemma moves_nine_of_no_empty (ctx : GameContext) (hinv : ctx.moves = occupiedCount ctx)
    (hnil : ctx.possible_moves = []) : ctx.moves = 9 := by
  have hsum := emptyCount_add_occupiedCount ctx
  have hz : emptyCount ctx = 0 := by unfold emptyCount; rw [hnil]; rfl
  omega

lemma over_of_no_moves (ctx : GameContext) (hinv : ctx.moves = occupiedCount ctx)
    (hnil : ctx.possible_moves = []) : (ctx.is_game_over).1 = true := by
  have h9 := moves_nine_of_no_empty ctx hinv hnil
  cases hf : ctx.allLines.find? filled_equal with
  | some l => rw [is_game_over_find_some ctx l hf]
  | none => rw [is_game_over_find_none ctx hf, if_pos h9]

lemma moves_ne_nil_of_not_over (ctx : GameContext) (hinv : ctx.moves = occupiedCount ctx)
    (hover : (ctx.is_game_over).1 = false) : ctx.possible_moves ≠ [] := by
  intro h
  rw [over_of_no_moves ctx hinv h] at hover
  cases hover

lemma scoresLoop_spec (p : Player) (M : Int) (fuel : Nat) (Q : Prop)
    (rec : MinimaxBot → GameContext → Except PyErr (Int × MinimaxBot))
    (ctx : GameContext)
    (hrec : ∀ (b : MinimaxBot) (c : GameContext), b.player = p → b.max_depth = M →
      c.moves = occupiedCount c → emptyCount c < fuel →
      ∃ b', rec b c = .ok (specScore p c, b') ∧ b'.player = p ∧ b'.max_depth = M ∧
        (Q → b'.move = b.move))
    (hinv : ctx.moves = occupiedCount ctx) (hfuel : emptyCount ctx ≤ fuel) :
    ∀ (l : List (Fin 3 × Fin 3)), (∀ mv ∈ l, mv ∈ ctx.possible_moves) →
    ∀ (b : MinimaxBot), b.player = p → b.max_depth = M →
    ∃ b', scoresLoop rec ctx b l
        = .ok (l.map fun mv => specScore p (ctx.update mv.1 mv.2), b') ∧
      b'.player = p ∧ b'.max_depth = M ∧ (Q → b'.move = b.move) := by
  intro l
  induction l with
  | nil =>
      intro _ b hbp hbM
      exact ⟨b, rfl, hbp, hbM, fun _ => rfl⟩
  | cons mv rest ih =>
      intro hsub b hbp hbM
      have hmv := hsub mv (List.mem_cons_self _ _)
      have hb : ctx.board mv.1 mv.2 = none := (mem_possible_moves ctx mv).1 hmv
      have hcinv : (ctx.update mv.1 mv.2).moves = occupiedCount (ctx.update mv.1 mv.2) :=
        inv_update ctx mv.1 mv.2 hb hinv
      have hce : emptyCount ctx = emptyCount (ctx.update mv.1 mv.2) + 1 :=
        emptyCount_update ctx mv.1 mv.2 hb
      obtain ⟨b1, hrec1, hb1p, hb1M, hb1mv⟩ :=
        hrec b (ctx.update mv.1 mv.2) hbp hbM hcinv (by omega)
      obtain ⟨b2, hloop, hb2p, hb2M, hb2mv⟩ :=
        ih (fun x hx => hsub x (List.mem_cons_of_mem _ hx)) b1 hb1p hb1M
      refine ⟨b2, ?_, hb2p, hb2M, fun hq => (hb2mv hq).trans (hb1mv hq)⟩
      simp only [scoresLoop, hrec1, hloop, List.map_cons]

lemma pymin_map_fst {α : Type} (f : α → Int) (a : α) (t : List α) :
    ∃ w, pymin ((a :: t).map fun x => (f x, x))
      = some ((t.map f).foldl min (f a), w) := by
  refine ⟨((t.map fun x => (f x, x)).foldl
      (fun acc y => if y.1 < acc.1 then y else acc) (f a, a)).2, ?_⟩
  simp only [pymin, List.map_cons]
  rw [← pymin_foldl_fst f t (f a, a), Prod.mk.eta]

lemma specScore_node_max (p : Player) (ctx : GameContext)
    (hover : (ctx.is_game_over).1 = false) (ht : ctx.turn = p)
    (m0 : Fin 3 × Fin 3) (t0 : List (Fin 3 × Fin 3))
    (hmoves : ctx.possible_moves = m0 :: t0) :
    specScore p ctx
      = specScore p (ctx.update (firstMaxAux
          (fun mv => specScore p (ctx.update mv.1 mv.2)) m0 t0).1
          (firstMaxAux (fun mv => specScore p (ctx.update mv.1 mv.2)) m0 t0).2) := by
  have hovernot : ¬((ctx.is_game_over).1 = true) := by
    rw [hover]; exact Bool.false_ne_true
  unfold specScore
  simp only [specScore_fuel, if_neg hovernot, if_pos ht]
  have hcongr :
      (ctx.possible_moves.map fun mv =>
          specScore_fuel (emptyCount ctx) p (ctx.update mv.1 mv.2))
        = ctx.possible_moves.map fun mv => specScore p (ctx.update mv.1 mv.2) :=
    List.map_congr_left fun mv hmv =>
      specScore_fuel_child p ctx (emptyCount ctx) (le_refl _) mv hmv
  rw [hcongr, hmoves, List.map_cons]
  show ((t0.map fun mv => specScore p (ctx.update mv.1 mv.2)).foldl max
      (specScore p (ctx.update m0.1 m0.2))) = _
  exact foldl_max_firstMaxAux (fun mv => specScore p (ctx.update mv.1 mv.2)) t0 m0

lemma specScore_node_min (p : Player) (ctx : GameContext)
    (hover : (ctx.is_game_over).1 = false) (ht : ¬ ctx.turn = p)
    (m0 : Fin 3 × Fin 3) (t0 : List (Fin 3 × Fin 3))
    (hmoves : ctx.possible_moves = m0 :: t0) :
    specScore p ctx
      = (t0.map fun mv => specScore p (ctx.update mv.1 mv.2)).foldl min
          (specScore p (ctx.update m0.1 m0.2)) := by
  have hovernot : ¬((ctx.is_game_over).1 = true) := by
    rw [hover]; exact Bool.false_ne_true
  unfold specScore
  simp only [specScore_fuel, if_neg hovernot, if_neg ht]
  have hcongr :
      (ctx.possible_moves.map fun mv =>
          specScore_fuel (emptyCount ctx) p (ctx.update mv.1 mv.2))
        = ctx.possible_moves.map fun mv => specScore p (ctx.update mv.1 mv.2) :=
    List.map_congr_left fun mv hmv =>
      specScore_fuel_child p ctx (emptyCount ctx) (le_refl _) mv hmv
  rw [hcongr, hmoves, List.map_cons]
  rfl

/-- The central correctness lemma for `minimax`: with sufficient fuel, on a
context satisfying the move-count invariant, `minimax` returns exactly the
specification's minimax score, preserves the bot's `player` and
`max_depth`, and — along root calls (`depth ≤ max_depth`) — assigns
`self.move` only at `depth = max_depth`, to the first maximal move in
generator order when it is the bot's turn and to the last legal move
otherwise. -/
lemma minimax_fuel_spec :
    ∀ (fuel : Nat) (bot : MinimaxBot) (ctx : GameContext) (depth : Int),
      ctx.moves = occupiedCount ctx → emptyCount ctx < fuel →
      ∃ bot', minimax_fuel fuel bot ctx depth = .ok (specScore bot.player ctx, bot') ∧
        bot'.player = bot.player ∧ bot'.max_depth = bot.max_depth ∧
        (depth ≤ bot.max_depth →
          bot'.move = if (ctx.is_game_over).1 = false ∧ depth = bot.max_depth
            then (if ctx.turn = bot.player then specBest bot.player ctx
                  else ctx.possible_moves.getLast?)
            else bot.move) := by
  intro fuel
  induction fuel with
  | zero => intro bot ctx depth _ hf; omega
  | succ fuel ih =>
      intro bot ctx depth hinv hf
      by_cases hover : (ctx.is_game_over).1 = true
      · refine ⟨bot, ?_, rfl, rfl, ?_⟩
        · have hscore : specScore bot.player ctx
              = terminalScore bot.player (ctx.is_game_over).2 := by
            unfold specScore
            simp only [specScore_fuel, if_pos hover]
          simp only [minimax_fuel, if_pos hover, hscore]
        · intro _
          rw [if_neg]
          rintro ⟨h1, _⟩
          rw [hover] at h1
          cases h1
      · rw [Bool.not_eq_true] at hover
        have hovernot : ¬((ctx.is_game_over).1 = true) := by
          rw [hover]; exact Bool.false_ne_true
        have hne := moves_ne_nil_of_not_over ctx hinv hover
        obtain ⟨m0, t0, hmoves⟩ := List.exists_cons_of_ne_nil hne
        have hrec : ∀ (b : MinimaxBot) (c : GameContext), b.player = bot.player →
            b.max_depth = bot.max_depth → c.moves = occupiedCount c → emptyCount c < fuel →
            ∃ b', (fun b c => minimax_fuel fuel b c (depth - 1)) b c
                = .ok (specScore bot.player c, b') ∧
              b'.player = bot.player ∧ b'.max_depth = bot.max_depth ∧
              (depth ≤ bot.max_depth → b'.move = b.move) := by
          intro b c hbp hbM hcinv hce
          obtain ⟨b', hb', h1, h2, h3⟩ := ih b c (depth - 1) hcinv hce
          refine ⟨b', ?_, hbp ▸ h1, hbM ▸ h2, ?_⟩
          · show minimax_fuel fuel b c (depth - 1) = Except.ok (specScore bot.player c, b')
            rw [hb', hbp]
          intro hdep
          have hdep' : depth - 1 ≤ b.max_depth := by rw [hbM]; omega
          rw [h3 hdep', if_neg]
          rintro ⟨_, heq⟩
          rw [hbM] at heq
          omega
        obtain ⟨bot1, hloop, hb1p, hb1M, hb1mv⟩ :=
          scoresLoop_spec bot.player bot.max_depth fuel (depth ≤ bot.max_depth)
            (fun b c => minimax_fuel fuel b c (depth - 1)) ctx hrec hinv (by omega)
            ctx.possible_moves (fun _ h => h) bot rfl rfl
        by_cases ht : ctx.turn = bot.player
        · -- the bot's turn: Python takes the first maximum of zip(scores, moves)
          have hcomp : minimax_fuel (fuel + 1) bot ctx depth
              = .ok (specScore bot.player
                  (ctx.update (firstMaxAux
                    (fun mv => specScore bot.player (ctx.update mv.1 mv.2)) m0 t0).1
                    (firstMaxAux
                      (fun mv => specScore bot.player (ctx.update mv.1 mv.2)) m0 t0).2),
                  if depth = bot.max_depth
                  then { bot1 with move := some (firstMaxAux
                    (fun mv => specScore bot.player (ctx.update mv.1 mv.2)) m0 t0) }
                  else bot1) := by
            simp only [minimax_fuel, if_neg hovernot]
            rw [hloop]
            simp only [if_pos ht]
            rw [hmoves, List.map_cons]
            show (match pymax (((m0 :: t0).map fun mv =>
                specScore bot.player (ctx.update mv.1 mv.2)).zip (m0 :: t0)) with
              | none => Except.error PyErr.valueError
              | some (score, mv) => Except.ok (score,
                  if depth = bot.max_depth then { bot1 with move := some mv } else bot1)) = _
            rw [zip_map_self, pymax_map]
          refine ⟨if depth = bot.max_depth
              then { bot1 with move := some (firstMaxAux
                (fun mv => specScore bot.player (ctx.update mv.1 mv.2)) m0 t0) }
              else bot1, ?_, ?_, ?_, ?_⟩
          · rw [hcomp, specScore_node_max bot.player ctx hover ht m0 t0 hmoves]
          · by_cases hd : depth = bot.max_depth <;> simp [hd, hb1p]
          · by_cases hd : depth = bot.max_depth <;> simp [hd, hb1M]
          · intro hdep
            by_cases hd : depth = bot.max_depth
            · rw [if_pos hd, if_pos ⟨hover, hd⟩, if_pos ht,
                specBest_eq bot.player ctx m0 t0 hmoves]
            · rw [if_neg hd, if_neg (fun h => hd h.2), hb1mv hdep]
        · -- not the bot's turn: the score is the minimum, the loop variable
          -- keeps the last move of the loop
          obtain ⟨w, hpymin⟩ :=
            pymin_map_fst (fun mv => specScore bot.player (ctx.update mv.1 mv.2)) m0 t0
          have hcomp : minimax_fuel (fuel + 1) bot ctx depth
              = .ok (((t0.map fun mv => specScore bot.player (ctx.update mv.1 mv.2)).foldl
                    min (specScore bot.player (ctx.update m0.1 m0.2))),
                  if depth = bot.max_depth
                  then { bot1 with move := ctx.possible_moves.getLast? }
                  else bot1) := by
            simp only [minimax_fuel, if_neg hovernot]
            rw [hloop]
            simp only [if_neg ht]
            rw [hmoves, List.map_cons]
            show (match pymin (((m0 :: t0).map fun mv =>
                specScore bot.player (ctx.update mv.1 mv.2)).zip (m0 :: t0)) with
              | none => Except.error PyErr.valueError
              | some (score, _) => Except.ok (score,
                  if depth = bot.max_depth
                  then { bot1 with move := (m0 :: t0).getLast? } else bot1)) = _
            rw [zip_map_self, hpymin, ← hmoves]
          refine ⟨if depth = bot.max_depth
              then { bot1 with move := ctx.possible_moves.getLast? }
              else bot1, ?_, ?_, ?_, ?_⟩
          · rw [hcomp, specScore_node_min bot.player ctx hover ht m0 t0 hmoves]
          · by_cases hd : depth = bot.max_depth <;> simp [hd, hb1p]
          · by_cases hd : depth = bot.max_depth <;> simp [hd, hb1M]
          · intro hdep
            by_cases hd : depth = bot.max_depth
            · rw [if_pos hd, if_pos ⟨hover, hd⟩, if_neg ht]
            · rw [if_neg hd, if_neg (fun h => hd h.2), hb1mv hdep]

instance {ε α : Type} [DecidableEq ε] [DecidableEq α] : DecidableEq (Except ε α)
  | .error e1, .error e2 =>
      if h : e1 = e2 then .isTrue (by rw [h])
      else .isFalse fun he => h (Except.error.inj he)
  | .error _, .ok _ => .isFalse fun h => Except.noConfusion h
  | .ok _, .error _ => .isFalse fun h => Except.noConfusion h
  | .ok a1, .ok a2 =>
      if h : a1 = a2 then .isTrue (by rw [h])
      else .isFalse fun he => h (Except.ok.inj he)

/-- The specification's tactical test position `X X . / O O . / . . .`
with `O` to move. -/
def ctxTactic : GameContext :=
  { moves := 4
    board := boardOf [[some .X, some .X, none], [some .O, some .O, none], [none, none, none]]
    turn := .O }

/-- A freshly constructed `MinimaxBot(Player.O, max_depth=8)`. -/
def botO8 : MinimaxBot := { player := .O, max_depth := 8 }

/-- A freshly constructed `MinimaxBot(Player.X, max_depth=8)`. -/
def botX8 : MinimaxBot := { player := .X, max_depth := 8 }

/-- A full drawn board (no line complete, `moves = 9`). -/
def ctxFullDraw : GameContext :=
  { moves := 9
    board := boardOf [[some .X, some .O, some .X], [some .X, some .O, some .O],
                      [some .O, some .X, some .X]]
    turn := .O }

/-- A full decided board: `O` owns the left column, `moves = 9`. -/
def ctxFullWin : GameContext :=
  { moves := 9
    board := boardOf [[some .O, some .X, some .X], [some .O, some .X, some .O],
                      [some .O, some .O, some .X]]
    turn := .X }

/-- A context violating the move-count invariant: eight cells occupied
with no line complete, but `moves = 3`, so the full child position is not
recognised as a draw (`moves == 9` fails) and `max()` is taken over an
empty sequence. -/
def ctxBroken : GameContext :=
  { moves := 3
    board := boardOf [[some .X, some .O, some .X], [some .X, some .O, some .O],
                      [some .O, some .X, none]]
    turn := .O }

/-- Claim C1, amended (corrected): for every `GameContext` satisfying the
move-count invariant, on which the game is not over, and whose `turn`
equals the bot's player, `predict_move` returns the first move in
`possible_moves` (generator) order whose minimax score — as defined by the
specification (`specScore`, `specBest`) — is maximal.  (The original
claim's precondition "has at least one legal move" is not sufficient:
see `predict_move_claim_counterexample`.) -/
theorem predict_move_first_argmax (ctx : GameContext) (bot : MinimaxBot)
    (hinv : ctx.moves = occupiedCount ctx)
    (hover : (ctx.is_game_over).1 = false)
    (ht : ctx.turn = bot.player) :
    ∃ m, specBest bot.player ctx = some m ∧ bot.predict_move ctx = .ok m := by
  have hne := moves_ne_nil_of_not_over ctx hinv hover
  obtain ⟨m0, t0, hmoves⟩ := List.exists_cons_of_ne_nil hne
  obtain ⟨bot', hmm, _, _, hmv⟩ :=
    minimax_fuel_spec (emptyCount ctx + 1) bot ctx bot.max_depth hinv (by omega)
  have hmv' := hmv (le_refl _)
  rw [if_pos ⟨hover, rfl⟩, if_pos ht,
    specBest_eq bot.player ctx m0 t0 hmoves] at hmv'
  refine ⟨_, specBest_eq bot.player ctx m0 t0 hmoves, ?_⟩
  unfold MinimaxBot.predict_move
  rw [hmm]
  simp only [hmv']

theorem predict_move_first_argmax_witness :
    ctxTactic.moves = occupiedCount ctxTactic ∧
    ∃ m, specBest botO8.player ctxTactic = some m ∧
      botO8.predict_move ctxTactic = .ok m :=
  ⟨by decide, predict_move_first_argmax ctxTactic botO8 (by decide) (by decide) (by decide)⟩

/-- Counterexample to claim C1 as stated.  Both positions have
`turn = Player.O` (the bot's player) and at least one legal move, yet
`predict_move` does not return any move: on `ctxRowWin` (a decided game
with empty cells left) `minimax` returns at the terminal check without
ever assigning `self.move`, so `predict_move` raises `AttributeError`; on
`ctxBroken` (eight cells filled but `moves = 3`) the recursion reaches a
full board that is not recognised as terminal and `max()` is applied to
an empty sequence, raising `ValueError`. -/
theorem predict_move_claim_counterexample :
    (ctxRowWin.turn = botO8.player ∧ ctxRowWin.possible_moves ≠ [] ∧
      botO8.predict_move ctxRowWin = .error .attributeError) ∧
    (ctxBroken.turn = botO8.player ∧ ctxBroken.possible_moves ≠ [] ∧
      botO8.predict_move ctxBroken = .error .valueError) := by
  decide

/-- Claim C8, amended (corrected): invoking `predict_move` on a state
with no legal move (given the move-count invariant) on a freshly
constructed bot fails — but with Python's `AttributeError` (reading the
never-assigned `self.move`), not with the specification's
`NoLegalMoveError`, which appears nowhere in the code. -/
theorem predict_move_no_moves_attribute_error (ctx : GameContext) (bot : MinimaxBot)
    (hnil : ctx.possible_moves = []) (hinv : ctx.moves = occupiedCount ctx)
    (hfresh : bot.move = none) :
    bot.predict_move ctx = .error .attributeError := by
  have hover := over_of_no_moves ctx hinv hnil
  have he : emptyCount ctx = 0 := by unfold emptyCount; rw [hnil]; rfl
  unfold MinimaxBot.predict_move
  rw [he]
  simp only [minimax_fuel, if_pos hover, hfresh]

theorem predict_move_no_moves_attribute_error_witness :
    botX8.predict_move ctxFullWin = .error .attributeError :=
  predict_move_no_moves_attribute_error ctxFullWin botX8 (by decide) (by decide) rfl

/-- Counterexample to claim C8 as stated: on a terminal state with no
legal move, `predict_move` of a fresh bot raises `AttributeError`,
not `NoLegalMoveError`. -/
theorem predict_move_no_moves_not_noLegalMoveError :
    ctxFullDraw.possible_moves = [] ∧
    botO8.predict_move ctxFullDraw = .error .attributeError ∧
    botO8.predict_move ctxFullDraw ≠ .error .noLegalMoveError := by
  decide

/-- Claim C10 (confirmed): on every context satisfying the move-count
invariant, `minimax` terminates for every value of the `depth` argument —
fuel `emptyCount ctx + 1` always suffices, because every recursive call
is on a state with strictly fewer empty cells — and the returned score
(`specScore`) does not depend on `depth`: `depth` is only compared with
`max_depth` to decide whether to record `self.move`, never used as a
recursion cutoff. -/
theorem minimax_terminates (ctx : GameContext) (bot : MinimaxBot)
    (hinv : ctx.moves = occupiedCount ctx) :
    (∀ depth : Int, ∃ bot',
      minimax_fuel (emptyCount ctx + 1) bot ctx depth
        = .ok (specScore bot.player ctx, bot')) ∧
    (∀ mv ∈ ctx.possible_moves, emptyCount (ctx.update mv.1 mv.2) < emptyCount ctx) := by
  constructor
  · intro depth
    obtain ⟨bot', hmm, _⟩ :=
      minimax_fuel_spec (emptyCount ctx + 1) bot ctx depth hinv (by omega)
    exact ⟨bot', hmm⟩
  · intro mv hmv
    have hb := (mem_possible_moves ctx mv).1 hmv
    have := emptyCount_update ctx mv.1 mv.2 hb
    omega

theorem minimax_terminates_witness :
    ∃ bot', minimax_fuel (emptyCount GameContext.init + 1) botO8 GameContext.init 8
      = .ok (specScore botO8.player GameContext.init, bot') :=
  (minimax_terminates GameContext.init botO8 (by decide)).1 8

/-! ## Store-level embedding

`GameContext.update` mutates its receiver in place, and `minimax` calls
`deepcopy` precisely so that this mutation never touches an ancestor
state.  Aliasing and in-place mutation are invisible in the value-level
embedding above, so the frame-effect claims are settled against a small
store model: a heap of `GameContext` objects addressed by references
(`Nat` indices), where a method call dereferences its receiver, `update`
writes the changed value back through the same reference, and `deepcopy`
allocates a fresh reference holding a copy of the dereferenced value. -/

/-- A heap of Python `GameContext` objects; a reference is an index. -/
structure Store where
  heap : List GameContext

/-- Dereference `r`.  (Python references are always valid; `getD` with
the initial context keeps the embedding total.) -/
def Store.read (s : Store) (r : Nat) : GameContext :=
  s.heap.getD r GameContext.init

/-- `new_ctx = deepcopy(curr_ctx)`: allocate a fresh reference holding a
copy of the value `c`. -/
def Store.alloc (s : Store) (c : GameContext) : Store × Nat :=
  (⟨s.heap ++ [c]⟩, s.heap.length)

/-- A call `obj.update(row, col)` on the object at reference `r`: the
in-place mutation writes the transformed value back through `r`. -/
def updateCall (s : Store) (r : Nat) (row col : Fin 3) : Store :=
  ⟨s.heap.set r ((s.read r).update row col)⟩

/-- `s'` is `s` with zero or more objects allocated on top; no object of
`s` has been touched. -/
def StoreExtends (s s' : Store) : Prop :=
  ∃ t, s'.heap = s.heap ++ t

/-- The `for move in moves:` loop of `minimax` at store level: deep-copy
the receiver at `r`, apply the move to the fresh copy, recurse on the
copy's reference. -/
def heapLoop (rec : Store → Nat → MinimaxBot → Store × Except PyErr (Int × MinimaxBot))
    (r : Nat) :
    Store → MinimaxBot → List (Fin 3 × Fin 3) → Store × Except PyErr (List Int × MinimaxBot)
  | s, bot, [] => (s, .ok ([], bot))
  | s, bot, mv :: rest =>
    match rec (updateCall (Store.alloc s (s.read r)).1 (Store.alloc s (s.read r)).2
        mv.1 mv.2) (Store.alloc s (s.read r)).2 bot with
    | (s3, .error e) => (s3, .error e)
    | (s3, .ok (sc, bot1)) =>
      match heapLoop rec r s3 bot1 rest with
      | (s4, .error e) => (s4, .error e)
      | (s4, .ok (ss, bot2)) => (s4, .ok (sc :: ss, bot2))

/-- `MinimaxBot.minimax` at store level: the receiver context is passed
by reference `r`; all reads (`is_game_over`, `possible_moves`, `turn`)
dereference, and exploration happens on freshly allocated deep copies. -/
def minimax_heap : Nat → Store → Nat → MinimaxBot → Int → Store × Except PyErr (Int × MinimaxBot)
  | 0, s, _, _, _ => (s, .error .fuel)
  | fuel + 1, s, r, bot, depth =>
    if ((s.read r).is_game_over).1 then
      (s, .ok (terminalScore bot.player ((s.read r).is_game_over).2, bot))
    else
      match heapLoop (fun s' nr b => minimax_heap fuel s' nr b (depth - 1)) r s bot
          (s.read r).possible_moves with
      | (s1, .error e) => (s1, .error e)
      | (s1, .ok (scores, bot1)) =>
        if (s1.read r).turn = bot.player then
          match pymax (scores.zip (s.read r).possible_moves) with
          | none => (s1, .error .valueError)
          | some (score, mv) =>
            (s1, .ok (score,
              if depth = bot.max_depth then { bot1 with move := some mv } else bot1))
        else
          match pymin (scores.zip (s.read r).possible_moves) with
          | none => (s1, .error .valueError)
          | some (score, _) =>
            (s1, .ok (score,
              if depth = bot.max_depth
              then { bot1 with move := (s.read r).possible_moves.getLast? } else bot1))

/-- `MinimaxBot.predict_move` at store level. -/
def predict_move_heap (s : Store) (r : Nat) (bot : MinimaxBot) :
    Store × Except PyErr (Fin 3 × Fin 3) :=
  match minimax_heap (emptyCount (s.read r) + 1) s r bot bot.max_depth with
  | (s', .error e) => (s', .error e)
  | (s', .ok (_, bot1)) =>
    match bot1.move with
    | some m => (s', .ok m)
    | none => (s', .error .attributeError)

lemma storeExtends_refl (s : Store) : StoreExtends s s :=
  ⟨[], by simp⟩

lemma storeExtends_trans {s1 s2 s3 : Store}
    (h12 : StoreExtends s1 s2) (h23 : StoreExtends s2 s3) : StoreExtends s1 s3 := by
  obtain ⟨t1, h1⟩ := h12
  obtain ⟨t2, h2⟩ := h23
  exact ⟨t1 ++ t2, by rw [h2, h1, List.append_assoc]⟩

lemma set_append_singleton {α : Type} (x : α) :
    ∀ (l1 : List α) (c : α), (l1 ++ [c]).set l1.length x = l1 ++ [x]
  | [], _ => rfl
  | a :: t, c => by
      simp only [List.cons_append, List.length_cons, List.set_cons_succ]
      rw [set_append_singleton x t c]

lemma storeExtends_alloc_update (s : Store) (c : GameContext) (row col : Fin 3) :
    StoreExtends s (updateCall (Store.alloc s c).1 (Store.alloc s c).2 row col) := by
  refine ⟨[(((Store.alloc s c).1).read (Store.alloc s c).2).update row col], ?_⟩
  show (s.heap ++ [c]).set s.heap.length _ = _
  rw [set_append_singleton]

lemma getD_append_left {α : Type} (d : α) :
    ∀ (l1 l2 : List α) (r : Nat), r < l1.length → (l1 ++ l2).getD r d = l1.getD r d
  | [], _, _, hr => absurd hr (by simp)
  | _ :: _, _, 0, _ => rfl
  | a :: t, l2, r + 1, hr =>
      getD_append_left d t l2 r (Nat.lt_of_succ_lt_succ hr)

lemma storeExtends_read (s s' : Store) (h : StoreExtends s s') (r : Nat)
    (hr : r < s.heap.length) : s'.read r = s.read r := by
  obtain ⟨t, ht⟩ := h
  unfold Store.read
  rw [ht]
  exact getD_append_left _ _ _ r hr

lemma heapLoop_extends
    (rec : Store → Nat → MinimaxBot → Store × Except PyErr (Int × MinimaxBot))
    (r : Nat) (hrec : ∀ s' nr b, StoreExtends s' (rec s' nr b).1) :
    ∀ (l : List (Fin 3 × Fin 3)) (s : Store) (b : MinimaxBot),
      StoreExtends s (heapLoop rec r s b l).1 := by
  intro l
  induction l with
  | nil => intro s b; exact storeExtends_refl s
  | cons mv rest ih =>
      intro s b
      have hstep : StoreExtends s
          (updateCall (Store.alloc s (s.read r)).1 (Store.alloc s (s.read r)).2 mv.1 mv.2) :=
        storeExtends_alloc_update s (s.read r) mv.1 mv.2
      cases hr1 : rec (updateCall (Store.alloc s (s.read r)).1 (Store.alloc s (s.read r)).2
          mv.1 mv.2) (Store.alloc s (s.read r)).2 b with
      | mk s3 res =>
          have h3 : StoreExtends s s3 := by
            have := hrec (updateCall (Store.alloc s (s.read r)).1
              (Store.alloc s (s.read r)).2 mv.1 mv.2) (Store.alloc s (s.read r)).2 b
            rw [hr1] at this
            exact storeExtends_trans hstep this
          cases res with
          | error e => simp only [heapLoop, hr1]; exact h3
          | ok v =>
              obtain ⟨sc, bot1⟩ := v
              cases hr2 : heapLoop rec r s3 bot1 rest with
              | mk s4 res2 =>
                  have h4 : StoreExtends s s4 := by
                    have := ih s3 bot1
                    rw [hr2] at this
                    exact storeExtends_trans h3 this
                  cases res2 with
                  | error e => simp only [heapLoop, hr1, hr2]; exact h4
                  | ok v2 => obtain ⟨ss, bot2⟩ := v2; simp only [heapLoop, hr1, hr2]; exact h4

lemma minimax_heap_extends :
    ∀ (fuel : Nat) (s : Store) (r : Nat) (bot : MinimaxBot) (depth : Int),
      StoreExtends s (minimax_heap fuel s r bot depth).1 := by
  intro fuel
  induction fuel with
  | zero => intro s r bot depth; exact storeExtends_refl s
  | succ fuel ih =>
      intro s r bot depth
      by_cases hover : ((s.read r).is_game_over).1 = true
      · simp only [minimax_heap, if_pos hover]; exact storeExtends_refl s
      · have hloopext := heapLoop_extends (fun s' nr b => minimax_heap fuel s' nr b (depth - 1))
          r (fun s' nr b => ih s' nr b (depth - 1)) (s.read r).possible_moves s bot
        cases hl : heapLoop (fun s' nr b => minimax_heap fuel s' nr b (depth - 1)) r s bot
            (s.read r).possible_moves with
        | mk s1 res =>
            rw [hl] at hloopext
            cases res with
            | error e => simp only [minimax_heap, if_neg hover, hl]; exact hloopext
            | ok v =>
                obtain ⟨scores, bot1⟩ := v
                simp only [minimax_heap, if_neg hover, hl]
                by_cases ht : (s1.read r).turn = bot.player
                · simp only [if_pos ht]
                  cases pymax (scores.zip (s.read r).possible_moves) with
                  | none => exact hloopext
                  | some v2 => obtain ⟨sc, mv⟩ := v2; exact hloopext
                · simp only [if_neg ht]
                  cases pymin (scores.zip (s.read r).possible_moves) with
                  | none => exact hloopext
                  | some v2 => obtain ⟨sc, mv⟩ := v2; exact hloopext

lemma predict_move_heap_extends (s : Store) (r : Nat) (bot : MinimaxBot) :
    StoreExtends s (predict_move_heap s r bot).1 := by
  have h := minimax_heap_extends (emptyCount (s.read r) + 1) s r bot bot.max_depth
  cases hm : minimax_heap (emptyCount (s.read r) + 1) s r bot bot.max_depth with
  | mk s' res =>
      rw [hm] at h
      cases res with
      | error e => simpa only [predict_move_heap, hm] using h
      | ok v =>
          obtain ⟨sc, bot1⟩ := v
          cases hb : bot1.move with
          | none => simpa only [predict_move_heap, hm, hb] using h
          | some m => simpa only [predict_move_heap, hm, hb] using h

/-- Claim C5 (confirmed): `minimax` (and hence `predict_move`) leaves the
`GameContext` passed to it — and in fact every object already allocated —
unchanged: the search only allocates fresh deep copies and mutates those,
never an ancestor state. -/
theorem minimax_preserves_context (fuel : Nat) (s : Store) (r : Nat)
    (bot : MinimaxBot) (depth : Int) (r' : Nat) (hr : r' < s.heap.length) :
    (minimax_heap fuel s r bot depth).1.read r' = s.read r' ∧
    (predict_move_heap s r bot).1.read r' = s.read r' :=
  ⟨storeExtends_read _ _ (minimax_heap_extends fuel s r bot depth) r' hr,
   storeExtends_read _ _ (predict_move_heap_extends s r bot) r' hr⟩

/-- The one-object store holding only the initial context. -/
def store0 : Store := ⟨[GameContext.init]⟩

theorem minimax_preserves_context_witness :
    (minimax_heap 1 store0 0 botO8 8).1.read 0 = store0.read 0 ∧
    (predict_move_heap store0 0 botO8).1.read 0 = store0.read 0 :=
  minimax_preserves_context 1 store0 0 botO8 8 0 (by decide)

instance : DecidableEq GameContext := fun a b =>
  decidable_of_iff
    (a.moves = b.moves ∧ a.turn = b.turn ∧ ∀ i j : Fin 3, a.board i j = b.board i j)
    (by
      constructor
      · rintro ⟨h1, h2, h3⟩
        cases a; cases b
        simp only [GameContext.mk.injEq]
        exact ⟨h1, funext fun i => funext fun j => h3 i j, h2⟩
      · rintro rfl
        exact ⟨rfl, rfl, fun _ _ => rfl⟩)

lemma getD_set_self {α : Type} (d x : α) :
    ∀ (l : List α) (r : Nat), r < l.length → (l.set r x).getD r d = x
  | [], _, hr => absurd hr (by simp)
  | _ :: _, 0, _ => rfl
  | a :: t, r + 1, hr => getD_set_self d x t r (Nat.lt_of_succ_lt_succ hr)

/-- Claim C4, amended (corrected): `GameContext.update` mutates its
receiver in place — after the call, the object reached through the same
reference holds the new value (cell written, `moves` incremented, `turn`
flipped), so it is *not* value-equal to the value held before — and no
new object is allocated; the non-mutating discipline the original claim
describes is instead realised by callers cloning first, as `minimax`
does via `deepcopy` (see `minimax_heap_extends`). -/
theorem update_mutates_in_place (s : Store) (r : Nat) (row col : Fin 3)
    (hr : r < s.heap.length) :
    (updateCall s r row col).read r = (s.read r).update row col ∧
    (updateCall s r row col).heap.length = s.heap.length ∧
    (updateCall s r row col).read r ≠ s.read r := by
  refine ⟨?_, by simp [updateCall], ?_⟩
  · unfold updateCall Store.read
    exact getD_set_self _ _ _ r hr
  · unfold updateCall Store.read
    rw [getD_set_self _ _ _ r hr]
    intro h
    have := congrArg GameContext.moves h
    simp [GameContext.update] at this

theorem update_mutates_in_place_witness :
    (updateCall store0 0 0 0).read 0 = (store0.read 0).update 0 0 ∧
    (updateCall store0 0 0 0).heap.length = store0.heap.length ∧
    (updateCall store0 0 0 0).read 0 ≠ store0.read 0 :=
  update_mutates_in_place store0 0 0 0 (by decide)

/-- Counterexample to claim C4 as stated: applying `update` for the legal
move `(0,0)` on the initial context mutates the receiver — the state
reachable through the caller's reference afterwards is not value-equal to
the state before the call. -/
theorem update_claim_counterexample :
    (store0.read 0).board 0 0 = none ∧
    (store0.read 0).moves = 0 ∧
    ((updateCall store0 0 0 0).read 0).moves = 1 ∧
    (updateCall store0 0 0 0).read 0 ≠ store0.read 0 := by
  decide

/-- `GameContext.update(row, col)` with Python's integer coordinates and
exception behaviour.  The method body is `self.moves += 1;
self.board[row][col] = self.turn; self.turn = Player(1 - self.turn)` —
there is *no* validation: any in-range cell is overwritten
unconditionally, and an out-of-range index raises `IndexError` from the
list subscript, *after* `moves` has already been incremented (the error
carries the mutated receiver).  All call sites pass non-negative
coordinates, so `Nat` coordinates are faithful. -/
def GameContext.update_py (ctx : GameContext) (row col : Nat) :
    Except (PyErr × GameContext) GameContext :=
  if h : row < 3 ∧ col < 3 then
    .ok (ctx.update ⟨row, h.1⟩ ⟨col, h.2⟩)
  else
    .error (.indexError, { ctx with moves := ctx.moves + 1 })

/-- Claim C3, amended (corrected): `GameContext.update` performs no
validation at all.  For in-range coordinates it always succeeds —
including on a non-Empty cell, which it silently overwrites —
incrementing `moves`, writing the current `turn` and flipping `turn`;
for an out-of-range coordinate it raises `IndexError` (not the
specification's `IllegalMoveError`, which appears nowhere in the code),
and does so only after `moves` has been incremented, so the receiver is
*not* left unchanged.  The empty-cell guard lives in the callers
(`mouse_callback` checks the cell, `minimax` applies only
`possible_moves`). -/
theorem update_no_validation :
    (∀ (ctx : GameContext) (row col : Fin 3),
      GameContext.update_py ctx row.val col.val = .ok (ctx.update row col)) ∧
    (∀ (ctx : GameContext) (row col : Nat), ¬ (row < 3 ∧ col < 3) →
      GameContext.update_py ctx row col
        = .error (.indexError, { ctx with moves := ctx.moves + 1 })) := by
  constructor
  · intro ctx row col
    unfold GameContext.update_py
    rw [dif_pos ⟨row.isLt, col.isLt⟩]
  · intro ctx row col h
    unfold GameContext.update_py
    rw [dif_neg h]

theorem update_no_validation_witness :
    GameContext.update_py GameContext.init 0 0 = .ok (GameContext.init.update 0 0) ∧
    GameContext.update_py GameContext.init 3 0
      = .error (.indexError, { GameContext.init with moves := 1 }) :=
  ⟨update_no_validation.1 GameContext.init 0 0,
   update_no_validation.2 GameContext.init 3 0 (by decide)⟩

/-- The initial context after the legal move `(0,0)`: cell `(0,0)` is
occupied (by `O`). -/
def ctxOcc : GameContext := GameContext.init.update 0 0

/-- Counterexample to claim C3 as stated: applying the state transition
to the already-occupied cell `(0,0)` does not fail with any error — it
succeeds and returns the changed state (with the cell overwritten by the
current turn's mark). -/
theorem update_claim_illegal_counterexample :
    ctxOcc.board 0 0 = some Player.O ∧
    GameContext.update_py ctxOcc 0 0 = .ok (ctxOcc.update 0 0) ∧
    (ctxOcc.update 0 0).board 0 0 = some Player.X := by
  decide

/-- `Application.reset_game`, modelling the three `randint` draws as
explicit arguments: `u` is `randint(0, 1)` choosing the human's player
(`Player(0) = X`, `Player(1) = O`), and `(r, c)` are the two
`randint(0, 2)` draws for the opening move.  The method builds a fresh
`GameContext` (whose `turn` starts at `Player.O`), binds the bot to
`Player(1 - user)` with `max_depth = 8`, and — only when the human is
`Player.X` — immediately plays `(r, c)` on the fresh context, a move that
is therefore made with mark `O`, the bot's player.  Returns
`(user_player, bot, ctx)`. -/
def Application.reset_game (u : Fin 2) (r c : Fin 3) :
    Player × MinimaxBot × GameContext :=
  (if u.val = 0 then Player.X else Player.O,
   { player := (if u.val = 0 then Player.X else Player.O).flip, max_depth := 8 },
   if (if u.val = 0 then Player.X else Player.O) = Player.X
   then GameContext.init.update r c else GameContext.init)

/-- Claim C9, amended (corrected): after every reset the human's player is
drawn uniformly (the draw `u ↦ Player(u)` enumerates both players), and
the resulting `moveCount` is in `{0, 1}`; but it is `1` exactly when the
human is assigned `Player.X` — the mark that moves *second*, since a
fresh context's `turn` is `Player.O` — and the opening move played in
that case carries mark `O`, i.e. it is made on the *bot's* behalf, not
the human's. -/
theorem reset_game_spec (u : Fin 2) (r c : Fin 3) :
    ((Application.reset_game u r c).2.2.moves = 0 ∨
      (Application.reset_game u r c).2.2.moves = 1) ∧
    ((Application.reset_game u r c).2.2.moves = 1 ↔
      (Application.reset_game u r c).1 = Player.X) ∧
    GameContext.init.turn = Player.O ∧
    ((Application.reset_game u r c).1 = Player.X →
      (Application.reset_game u r c).2.2.board r c = some Player.O ∧
      (Application.reset_game u r c).2.1.player = Player.O) ∧
    (Application.reset_game 0 r c).1 = Player.X ∧
    (Application.reset_game 1 r c).1 = Player.O := by
  fin_cases u
  · refine ⟨Or.inr rfl, ⟨fun _ => rfl, fun _ => rfl⟩, rfl, fun _ => ⟨?_, rfl⟩, rfl, rfl⟩
    exact update_board_eq GameContext.init r c
  · exact ⟨Or.inl rfl,
      ⟨fun h => by simp [Application.reset_game, GameContext.init] at h,
       fun h => by simp [Application.reset_game] at h⟩,
      rfl, fun h => by simp [Application.reset_game] at h, rfl, rfl⟩

theorem reset_game_spec_witness :
    (Application.reset_game 0 0 0).2.2.board 0 0 = some Player.O ∧
    (Application.reset_game 0 0 0).2.1.player = Player.O :=
  (reset_game_spec 0 0 0).2.2.2.1 (by decide)

/-- Counterexample to claim C9 as stated: the mark that moves first in
turn order is `O` (a fresh context's `turn`), yet when the human is
assigned `O` the reset makes *no* opening move (`moveCount = 0`), and
when the human is assigned `X` — not the first mover — the reset makes
the opening move, placing mark `O`, the bot's mark, not the human's. -/
theorem reset_game_claim_counterexample :
    GameContext.init.turn = Player.O ∧
    (Application.reset_game 1 0 0).1 = Player.O ∧
    (Application.reset_game 1 0 0).2.2.moves = 0 ∧
    (Application.reset_game 0 0 0).1 = Player.X ∧
    (Application.reset_game 0 0 0).2.2.moves = 1 ∧
    (Application.reset_game 0 0 0).2.2.board 0 0 = some Player.O ∧
    (Application.reset_game 0 0 0).2.1.player = Player.O := by
  decide
